import Mathlib

/-!
# Verification of the bluetti-web-discovery core

A shallow embedding, in Lean 4, of the MODBUS codec, register scanner,
handshake message layer and AES-CBC transport codec of the
`bluetti-web-discovery` TypeScript repository, together with theorems
settling the specification claims about them.

Bytes are modelled as `Nat` with explicit `% 256` (or `&&& 0xff`)
truncation exactly where the TypeScript stores into a `Uint8Array`;
byte strings are `List Nat`.  The AES block permutation and the MD5
digest, which the source takes from platform libraries (WebCrypto,
spark-md5), are abstracted as function parameters.

The file is organised as definitions first, then theorems.
-/

namespace Bluetti

/-! ## Definitions: CRC-16 (`src/modbus/crc.ts`) -/

/-- One iteration of the inner bit loop of `crc16`:
`odd = crc & 1; crc = crc >> 1; if odd then crc = crc ^ 0xa001`. -/
def crc16Round (crc : Nat) : Nat :=
  let odd := crc &&& 0x0001
  let crc := crc >>> 1
  if odd ≠ 0 then crc ^^^ 0xa001 else crc

/-- `n` iterations of the inner bit loop (the source runs it 8 times per byte). -/
def crc16Bits : Nat → Nat → Nat
  | 0, crc => crc
  | j + 1, crc => crc16Bits j (crc16Round crc)

/-- `crc16` from `src/modbus/crc.ts`: initial value `0xffff`, per input byte
XOR the byte in and run the bit loop 8 times. -/
def crc16 (buffer : List Nat) : Nat :=
  buffer.foldl (fun crc b => crc16Bits 8 (crc ^^^ b)) 0xffff

/-! ## Definitions: MODBUS command framing and response validation
(`src/modbus/commands.ts`, `DeviceCommand`, and
`src/bluetooth/client.ts`, `BluetoothClient.sendCommand`) -/

/-- MODBUS slave address used by all Bluetti devices. -/
def MODBUS_ADDRESS : Nat := 0x01

/-- The command packet built by the `DeviceCommand` constructor:
`[MODBUS_ADDR][FUNCTION_CODE][...data...][CRC_LOW][CRC_HIGH]`, with the CRC
computed over all bytes except the trailing two and stored little-endian.
Storing into the `Uint8Array` truncates each value modulo 256. -/
def mkCommand (functionCode : Nat) (data : List Nat) : List Nat :=
  let packet := MODBUS_ADDRESS :: functionCode % 256 :: data.map (· % 256)
  let crc := crc16 packet
  packet ++ [crc &&& 0xff, (crc >>> 8) &&& 0xff]

/-- `DeviceCommand.isValidResponse`: length at least 3, and the CRC over all
bytes except the last two must equal `response[-2] | (response[-1] << 8)`. -/
def isValidResponse (response : List Nat) : Bool :=
  if response.length < 3 then false
  else
    decide (crc16 (response.take (response.length - 2)) =
      response.getD (response.length - 2) 0 |||
        (response.getD (response.length - 1) 0 <<< 8))

/-- `DeviceCommand.isExceptionResponse`: the function byte equals the
request's function code plus `0x80`. -/
def isExceptionResponse (functionCode : Nat) (response : List Nat) : Bool :=
  if response.length < 2 then false
  else decide (response.getD 1 0 = functionCode + 0x80)

/-- `DeviceCommand.getExceptionCode`: `response[2]`; throws when the
response is shorter than 3 bytes. -/
def getExceptionCode (response : List Nat) : Option Nat :=
  if response.length < 3 then none else some (response.getD 2 0)

/-- `ReadHoldingRegisters.parseResponse`: `response.slice(3, -2)`. -/
def parseReadHoldingRegisters (response : List Nat) : List Nat :=
  (response.take (response.length - 2)).drop 3

/-- Outcome of the response-validation block of `BluetoothClient.sendCommand`. -/
inductive ModbusOutcome where
  /-- `ChecksumError` thrown when `isValidResponse` is false. -/
  | checksumError : ModbusOutcome
  /-- `ModbusError` thrown for an exception response, carrying the code. -/
  | modbusException (code : Nat) : ModbusOutcome
  /-- The parsed payload returned on the success path. -/
  | parsed (data : List Nat) : ModbusOutcome
  /-- The plain `Error` thrown by `getExceptionCode` on a short response
  (unreachable after `isValidResponse`). -/
  | internalError : ModbusOutcome
deriving DecidableEq, Repr

/-- The validation block of `BluetoothClient.sendCommand`
(`src/bluetooth/client.ts`): `ChecksumError` unless `isValidResponse`,
then `ModbusError` if `isExceptionResponse`, then `parseResponse`.
No function-code or size check is performed on the response. -/
def sendCommandValidate (functionCode : Nat) (parse : List Nat → List Nat)
    (response : List Nat) : ModbusOutcome :=
  if ¬ isValidResponse response then .checksumError
  else if isExceptionResponse functionCode response then
    match getExceptionCode response with
    | some code => .modbusException code
    | none => .internalError
  else .parsed (parse response)

/-! ## Definitions: BLE client disconnect handling
(`src/bluetooth/client.ts`, `handleGattServerDisconnected`) -/

/-- The pieces of `BluetoothClient` state touched by the disconnect handler;
each `Bool` records whether the corresponding field is non-null. -/
structure ClientConnState where
  writeCharacteristic : Bool
  notifyCharacteristic : Bool
  responsePromise : Bool
  handshakeProtocol : Bool
deriving DecidableEq, Repr

/-- Observable settlement actions performed on the in-flight response
promise by a handler (calls to `resolve` or `reject`). -/
inductive PromiseAction where
  | rejectedDisconnected : PromiseAction
  | rejectedOther : PromiseAction
  | resolved : PromiseAction
deriving DecidableEq, Repr

/-- `handleGattServerDisconnected`: removes the notification listener, nulls
both characteristics, nulls `responsePromise` (without invoking its `reject`
— the source performs no call on the promise before dropping it) and nulls
`handshakeProtocol`.  The second component lists the settlement actions the
handler performs on the in-flight promise: there are none. -/
def handleGattServerDisconnected (s : ClientConnState) :
    ClientConnState × List PromiseAction :=
  (⟨false, false, false, false⟩, [])

/-! ## Definitions: register scanner (`src/discovery/scanner.ts`) -/

/-- Per-request register ceiling (`src/bluetooth/constants.ts`). -/
def MAX_REGISTERS_PER_REQUEST : Nat := 7

/-- A half-open register range `{start, end}`.  The source's `end` field is
a reserved word in Lean and is named `stop` here. -/
structure RegisterRange where
  start : Nat
  stop : Nat
deriving DecidableEq, Repr

/-- The inner `while` loop of `splitRangesToSize` applied to one range:
repeatedly emit `min (end - start) maxRegisterCount` registers.  The source
loop never terminates when `maxRegisterCount = 0` (it is only ever called
with the constant 7); this embedding returns `[]` in that unreached case. -/
def splitRangeLoop (start stop maxRegisterCount : Nat) : List RegisterRange :=
  if h : start < stop ∧ 0 < maxRegisterCount then
    let count := min (stop - start) maxRegisterCount
    ⟨start, start + count⟩ :: splitRangeLoop (start + count) stop maxRegisterCount
  else []
termination_by stop - start
decreasing_by
  have h1 : 0 < min (stop - start) maxRegisterCount := by
    rcases h with ⟨h1, h2⟩
    simp only [Nat.lt_min]
    omega
  omega

/-- `splitRangesToSize`: divide scan ranges into chunks of at most
`maxRegisterCount` registers each. -/
def splitRangesToSize (scanRanges : List RegisterRange) (maxRegisterCount : Nat) :
    List RegisterRange :=
  scanRanges.flatMap (fun r => splitRangeLoop r.start r.stop maxRegisterCount)

/-- Scanner state: the chunk stack, the scanned-register counter and the
log of recorded per-register results (`some value` readable, `none` not).
The source keeps the stack in an array popped and pushed at its back end;
here the list head is that back end (the top of the stack). -/
structure ScanState where
  remainingRanges : List RegisterRange
  scannedRegisters : Nat
  results : List (Nat × Option (List Nat))
deriving Repr

/-- The `RegisterScanner` constructor: chunk the ranges to at most
`MAX_REGISTERS_PER_REQUEST` registers.  The source stores the chunks
`.toReversed()` and pops from the array's back, which processes them in
order; with the list head as stack top no reversal is needed. -/
def scanInit (scanRanges : List RegisterRange) : ScanState :=
  { remainingRanges := splitRangesToSize scanRanges MAX_REGISTERS_PER_REQUEST
    scannedRegisters := 0
    results := [] }

/-- One `RegisterScanner.step`, with the device read modelled by the oracle
`read start count` (`none` = the read threw).  On success each register's two
bytes `data.slice(2*i, 2*i+2)` are recorded readable; on failure a
single-register chunk is recorded unreadable, and a larger chunk is split at
`mid = start + floor(count / 2)`, with `{start, mid}` pushed and then
`{mid, end}` pushed on top of it (the source pushes them at the array's
back in that order, so `{mid, end}` is popped first). -/
def scanStep (read : Nat → Nat → Option (List Nat)) (s : ScanState) : ScanState :=
  match s.remainingRanges with
  | [] => s
  | range :: rest =>
    let count := range.stop - range.start
    match read range.start count with
    | some data =>
      { remainingRanges := rest
        scannedRegisters := s.scannedRegisters + count
        results := s.results ++
          (List.range count).map (fun i => (range.start + i, some ((data.drop (i * 2)).take 2))) }
    | none =>
      if count = 1 then
        { remainingRanges := rest
          scannedRegisters := s.scannedRegisters + 1
          results := s.results ++ [(range.start, none)] }
      else
        let mid := range.start + count / 2
        { remainingRanges := ⟨mid, range.stop⟩ :: ⟨range.start, mid⟩ :: rest
          scannedRegisters := s.scannedRegisters
          results := s.results }

/-- The registers of a range, as a list. -/
def rangeRegs (r : RegisterRange) : List Nat :=
  List.range' r.start (r.stop - r.start)

/-- The body of the `while` loop of `calculatePendingRanges`, processing the
scanned registers from the first one `≥ startRegister` on and stopping at the
first one `≥ endRegister`, then emitting the final gap. -/
def pendingLoop (endRegister : Nat) : Nat → List Nat → List RegisterRange
  | current, [] => if current < endRegister then [⟨current, endRegister⟩] else []
  | current, s :: rest =>
    if s < endRegister then
      (if s > current then [⟨current, s⟩] else []) ++ pendingLoop endRegister (s + 1) rest
    else
      if current < endRegister then [⟨current, endRegister⟩] else []

/-- `RegisterScanner.calculatePendingRanges`: the ranges in
`[startRegister, endRegister)` not yet scanned.  `findIdx` models the
source's `findIndex` (`-1`, which skips the loop, corresponds to dropping
the whole list). -/
def calculatePendingRanges (startRegister endRegister : Nat)
    (scannedRegisters : List Nat) : List RegisterRange :=
  let idx := scannedRegisters.findIdx (· ≥ startRegister)
  pendingLoop endRegister startRegister (scannedRegisters.drop idx)

/-- `a` lies inside one of the ranges: the coverage predicate used to state
what `calculatePendingRanges` returns. -/
def coveredBy (rs : List RegisterRange) (a : Nat) : Prop :=
  ∃ r ∈ rs, r.start ≤ a ∧ a < r.stop

instance (rs : List RegisterRange) (a : Nat) : Decidable (coveredBy rs a) :=
  inferInstanceAs (Decidable (∃ r ∈ rs, _ ∧ _))

/-! ## Definitions: scan-result store (`src/discovery/scanner.ts`,
`RegisterScanner.recordResult`) -/

/-- A row of the `scanResults` table. -/
structure ScanResultRecord where
  deviceId : String
  register : Nat
  readable : Bool
  value : Option (List Nat)
  scannedAt : Nat
deriving DecidableEq, Repr

/-- The persisted store, keyed by `(deviceId, register)`. -/
def ScanStore : Type := String → Nat → Option ScanResultRecord

/-- The add-or-conditionally-modify transaction of `recordResult`: insert
when the key is absent; otherwise leave the row unchanged when the update
carries `readable = false` but the stored row has `readable = true`
(`if (!update.readable && obj.readable) return`), else `Object.assign` the
update's `value`, `scannedAt` and `readable` onto the row. -/
def upsertScanResult (store : ScanStore) (record : ScanResultRecord) : ScanStore :=
  fun d r =>
    if d = record.deviceId ∧ r = record.register then
      match store record.deviceId record.register with
      | none => some record
      | some obj =>
        if record.readable = false ∧ obj.readable = true then some obj
        else some { obj with
          readable := record.readable
          value := record.value
          scannedAt := record.scannedAt }
    else store d r

/-- `RegisterScanner.recordResult`: build the update
`{value, scannedAt, readable: !!value}` (a `Uint8Array` is always truthy,
so `readable` is exactly `value.isSome`) and upsert it. -/
def recordResult (store : ScanStore) (deviceId : String) (register : Nat)
    (value : Option (List Nat)) (scannedAt : Nat) : ScanStore :=
  upsertScanResult store
    { deviceId := deviceId, register := register, readable := value.isSome
      value := value, scannedAt := scannedAt }

/-! ## Definitions: handshake messages (`src/encryption/handshake.ts`,
`HandshakeMessage`) -/

/-- `HandshakeMessage.toBytes`: `[0x2a 0x2a][state][body_len][body][sum_hi sum_lo]`
where `sum` adds the state byte, the length byte and the body bytes.
`Uint8Array` stores truncate modulo 256. -/
def handshakeToBytes (state : Nat) (body : List Nat) : List Nat :=
  let core := state % 256 :: body.length % 256 :: body.map (· % 256)
  let sum := core.foldl (· + ·) 0
  0x2a :: 0x2a :: (core ++ [(sum >>> 8) &&& 0xff, sum &&& 0xff])

/-- `HandshakeMessage.parse`: check minimum length, prefix, checksum and
declared body length, then return the state and `data.slice(4, -2)`. -/
def handshakeParse (data : List Nat) : Except String (Nat × List Nat) :=
  if data.length < 6 then .error "Message too short"
  else if ¬ (data.getD 0 0 = 0x2a ∧ data.getD 1 0 = 0x2a) then
    .error "Prefix is not correct"
  else
    let sum := ((data.take (data.length - 2)).drop 2).foldl (· + ·) 0
    let expectedChecksum :=
      (data.getD (data.length - 2) 0 <<< 8) ||| data.getD (data.length - 1) 0
    if sum ≠ expectedChecksum then .error "Checksum is not correct"
    else
      let state := data.getD 2 0
      let length := data.getD 3 0
      let bodyLength := data.length - 6
      if length ≠ bodyLength then .error "Body length mismatch"
      else .ok (state, (data.take (data.length - 2)).drop 4)

/-! ## Definitions: challenge handling (`src/encryption/handshake.ts`,
`HandshakeProtocol._handleChallenge` / `_setAesKey`).  `md5f` abstracts the
`md5` helper (spark-md5); the derived AES key is kept as its raw bytes. -/

/-- `HandshakeProtocol._setAesKey`: reject a challenge that is not 4 bytes,
set `aes_iv = md5(reverse(challenge))` and `aes_key[i] = aes_iv[i] XOR
sharedSecret[i]` for `i < 16`.  Returns `(aesIv, aesKeyBytes)`. -/
def setAesKey (md5f : List Nat → List Nat) (sharedSecret : List Nat)
    (challenge : List Nat) : Except String (List Nat × List Nat) :=
  if challenge.length ≠ 4 then .error "Expected challenge to be 4 bytes"
  else
    let aesIv := md5f challenge.reverse
    let aesKeyBytes :=
      (List.range 16).map (fun i => aesIv.getD i 0 ^^^ sharedSecret.getD i 0)
    .ok (aesIv, aesKeyBytes)

/-- `HandshakeProtocol._handleChallenge`: derive the challenge-round keys
from the state-1 body, and reply with a `CHALLENGE_RESPONSE` (state 2)
message whose body is `aes_iv.slice(8, 12)`.  Returns the derived
`(aesIv, aesKeyBytes)` together with the reply's `(state, body)`. -/
def handleChallenge (md5f : List Nat → List Nat) (sharedSecret : List Nat)
    (body : List Nat) : Except String ((List Nat × List Nat) × (Nat × List Nat)) :=
  match setAesKey md5f sharedSecret body with
  | .error e => .error e
  | .ok (aesIv, aesKeyBytes) =>
    .ok ((aesIv, aesKeyBytes), (2, (aesIv.drop 8).take 4))

/-! ## Definitions: AES-CBC transport codec (`src/encryption/aes.ts`)

The WebCrypto primitive `crypto.subtle.{encrypt, decrypt}` with
`{name: "AES-CBC"}` is modelled by `subtleEncrypt` / `subtleDecrypt`:
CBC mode with mandatory PKCS#7 padding over an abstract 16-byte block
permutation `E` (encipher) / `D` (decipher) standing for AES under the
imported key. -/

/-- Byte-wise XOR of two equal-length byte strings. -/
def xorBytes (a b : List Nat) : List Nat :=
  List.zipWith (· ^^^ ·) a b

/-- Fuel-driven block splitter: each step takes 16 bytes, so fuel equal to
the input length always suffices (one byte of fuel per emitted block is
enough, and every block consumes at least one byte). -/
def toBlocksGo : Nat → List Nat → List (List Nat)
  | _, [] => []
  | 0, _ :: _ => []
  | fuel + 1, x :: xs => (x :: xs).take 16 :: toBlocksGo fuel ((x :: xs).drop 16)

/-- Split a byte string into consecutive 16-byte blocks (the last block is
short when the length is not a multiple of 16). -/
def toBlocks (l : List Nat) : List (List Nat) :=
  toBlocksGo l.length l

/-- PKCS#7 padding: append `16 - len % 16` copies of that count. -/
def pkcs7Pad (data : List Nat) : List Nat :=
  let padLen := 16 - data.length % 16
  data ++ List.replicate padLen padLen

/-- CBC encryption of a block sequence: `c_i = E (p_i XOR c_{i-1})` with
`c_0` the IV. -/
def cbcEncryptBlocks (E : List Nat → List Nat) : List Nat → List (List Nat) → List (List Nat)
  | _, [] => []
  | prev, b :: bs =>
    let c := E (xorBytes b prev)
    c :: cbcEncryptBlocks E c bs

/-- CBC decryption of a block sequence: `p_i = D c_i XOR c_{i-1}`. -/
def cbcDecryptBlocks (D : List Nat → List Nat) : List Nat → List (List Nat) → List (List Nat)
  | _, [] => []
  | prev, c :: cs => xorBytes (D c) prev :: cbcDecryptBlocks D c cs

/-- PKCS#7 unpadding: the last byte names the pad length; every pad byte
must equal it, else the decrypt fails. -/
def pkcs7Unpad (pt : List Nat) : Option (List Nat) :=
  match pt.getLast? with
  | none => none
  | some n =>
    if 1 ≤ n ∧ n ≤ 16 ∧ n ≤ pt.length ∧ (pt.drop (pt.length - n)).all (· = n) then
      some (pt.take (pt.length - n))
    else none

/-- Models `crypto.subtle.encrypt({name: "AES-CBC", iv}, key, data)`. -/
def subtleEncrypt (E : List Nat → List Nat) (iv data : List Nat) : List Nat :=
  (cbcEncryptBlocks E iv (toBlocks (pkcs7Pad data))).flatten

/-- Models `crypto.subtle.decrypt({name: "AES-CBC", iv}, key, data)`:
fails unless the input is a non-zero whole number of blocks ending in
valid PKCS#7 padding. -/
def subtleDecrypt (D : List Nat → List Nat) (iv data : List Nat) : Option (List Nat) :=
  if data.length % 16 = 0 ∧ data.length ≠ 0 then
    pkcs7Unpad (cbcDecryptBlocks D iv (toBlocks data)).flatten
  else none

/-- `aesEncrypt` from `src/encryption/aes.ts`.  When the caller passes no
IV, the source draws 4 random bytes; that draw is the explicit `ivSeed`
parameter here (unused when `iv` is given).  Output:
`[len_hi len_lo] ([iv_seed:4])? [ciphertext]`, and the ciphertext is the
full PKCS#7 output of the primitive — the source appends
`encrypted.byteLength` bytes with no truncation. -/
def aesEncrypt (E : List Nat → List Nat) (md5f : List Nat → List Nat)
    (ivSeed : List Nat) (data : List Nat) (iv : Option (List Nat)) : List Nat :=
  let actualIv := match iv with
    | some v => v
    | none => md5f ivSeed
  let encrypted := subtleEncrypt E actualIv data
  let header := match iv with
    | some _ => [(data.length >>> 8) &&& 0xff, data.length &&& 0xff]
    | none => [(data.length >>> 8) &&& 0xff, data.length &&& 0xff] ++ ivSeed
  header ++ encrypted

/-- Size of the header `aesEncrypt` places before the ciphertext: 2 bytes of
length when the caller passes an IV, else length plus the 4 seed bytes. -/
def aesHeaderSize : Option (List Nat) → Nat
  | some _ => 2
  | none => 6

/-- `aesDecrypt` from `src/encryption/aes.ts`: read the 2-byte big-endian
length, derive the IV (given, or MD5 of the 4 seed bytes at offset 2),
append to the ciphertext the encryption under the last 16 input bytes of a
fabricated full PKCS#7 pad block so the PKCS#7-only primitive accepts
null-padded input, decrypt, and slice to the recorded length. -/
def aesDecrypt (E D : List Nat → List Nat) (md5f : List Nat → List Nat)
    (data : List Nat) (iv : Option (List Nat)) : Option (List Nat) :=
  if data.length < 2 then none
  else
    let dataLen := (data.getD 0 0 <<< 8) ||| data.getD 1 0
    let actualIv := match iv with
      | some v => v
      | none => md5f ((data.drop 2).take 4)
    let encrypted := match iv with
      | some _ => data.drop 2
      | none => data.drop 6
    let lastBlock := data.drop (data.length - 16)
    let paddingBlock := (subtleEncrypt E lastBlock (List.replicate 16 16)).take 16
    let extendedData := encrypted ++ paddingBlock
    match subtleDecrypt D actualIv extendedData with
    | none => none
    | some decrypted => some (decrypted.take dataLen)

/-! ## Theorems: CRC-16 bounds and byte recombination -/

theorem crc16Round_lt {crc : Nat} (h : crc < 65536) : crc16Round crc < 65536 := by
  have h1 : crc >>> 1 < 65536 := by
    rw [Nat.shiftRight_eq_div_pow]
    omega
  have h2 : crc >>> 1 ^^^ 0xa001 < 65536 := by
    have hpow : (65536 : Nat) = 2 ^ 16 := by norm_num
    rw [hpow]
    exact Nat.xor_lt_two_pow (hpow ▸ h1) (by norm_num)
  unfold crc16Round
  simp only []
  split <;> assumption

theorem crc16Bits_lt {crc : Nat} (n : Nat) (h : crc < 65536) :
    crc16Bits n crc < 65536 := by
  induction n generalizing crc with
  | zero => exact h
  | succ j ih => exact ih (crc16Round_lt h)

theorem crc16_lt {buffer : List Nat} (h : ∀ b ∈ buffer, b < 65536) :
    crc16 buffer < 65536 := by
  unfold crc16
  have general : ∀ (l : List Nat) (init : Nat), init < 65536 → (∀ b ∈ l, b < 65536) →
      l.foldl (fun crc b => crc16Bits 8 (crc ^^^ b)) init < 65536 := by
    intro l
    induction l with
    | nil => intro init hi _; exact hi
    | cons x xs ih =>
      intro init hi hb
      simp only [List.foldl_cons]
      have hpow : (65536 : Nat) = 2 ^ 16 := by norm_num
      have hxor : init ^^^ x < 65536 := by
        rw [hpow]
        exact Nat.xor_lt_two_pow (hpow ▸ hi) (hpow ▸ hb x (List.mem_cons_self x xs))
      exact ih (crc16Bits 8 (init ^^^ x)) (crc16Bits_lt 8 hxor)
        (fun b hb' => hb b (List.mem_cons_of_mem x hb'))
  exact general buffer 0xffff (by norm_num) h

/-- Recombining the two little-endian CRC bytes `crc & 0xff` and
`(crc >> 8) & 0xff` as `lo | (hi << 8)` recovers any 16-bit value. -/
theorem lo_or_hi_shift {x : Nat} (h : x < 65536) :
    (x &&& 0xff) ||| (((x >>> 8) &&& 0xff) <<< 8) = x := by
  have e255 : (0xff : Nat) = 2 ^ 8 - 1 := by norm_num
  have e1 : x &&& 0xff = x % 256 := by
    rw [e255, Nat.and_pow_two_sub_one_eq_mod]
  have e2 : (x >>> 8) &&& 0xff = x / 256 := by
    rw [Nat.shiftRight_eq_div_pow, e255, Nat.and_pow_two_sub_one_eq_mod]
    omega
  have e3 : (x / 256) <<< 8 = 2 ^ 8 * (x / 256) := by
    rw [Nat.shiftLeft_eq]
    ring
  rw [e1, e2, e3, Nat.or_comm, ← Nat.mul_add_lt_is_or (by omega : x % 256 < 2 ^ 8)]
  omega

set_option maxRecDepth 8192 in
example : crc16 [0x01, 0x03, 0x00, 0x00, 0x00, 0x01] = 0x0a84 := by decide

set_option maxRecDepth 8192 in
example : mkCommand 0x03 [0x00, 0x00, 0x00, 0x01] =
    [0x01, 0x03, 0x00, 0x00, 0x00, 0x01, 0x84, 0x0a] := by decide

theorem crc16_mkCommand_packet_lt (functionCode : Nat) (data : List Nat) :
    crc16 (MODBUS_ADDRESS :: functionCode % 256 :: data.map (· % 256)) < 65536 := by
  apply crc16_lt
  intro b hb
  simp only [List.mem_cons, List.mem_map] at hb
  rcases hb with h | h | ⟨a, _, rfl⟩
  · simp [h, MODBUS_ADDRESS]
  · omega
  · omega

/-- C1: every command frame produced by the codec has layout
`[slave=0x01][function][payload...][crc_lo][crc_hi]`, and the CRC-16 computed
over all bytes except the trailing two equals `frame[-2] | (frame[-1] << 8)`. -/
theorem mkCommand_crc_roundtrip (functionCode : Nat) (data : List Nat) :
    (mkCommand functionCode data).length = data.length + 4 ∧
    (mkCommand functionCode data).take ((mkCommand functionCode data).length - 2) =
      0x01 :: functionCode % 256 :: data.map (· % 256) ∧
    crc16 ((mkCommand functionCode data).take ((mkCommand functionCode data).length - 2)) =
      (mkCommand functionCode data).getD ((mkCommand functionCode data).length - 2) 0 |||
        ((mkCommand functionCode data).getD ((mkCommand functionCode data).length - 1) 0 <<< 8) := by
  have hcrc := crc16_mkCommand_packet_lt functionCode data
  set packet := MODBUS_ADDRESS :: functionCode % 256 :: data.map (· % 256) with hpacket
  have hframe : mkCommand functionCode data =
      packet ++ [crc16 packet &&& 0xff, (crc16 packet >>> 8) &&& 0xff] := rfl
  have hplen : packet.length = data.length + 2 := by simp [hpacket]
  have hlen : (mkCommand functionCode data).length = data.length + 4 := by
    rw [hframe]
    simp [hplen]
  have htake : (mkCommand functionCode data).take ((mkCommand functionCode data).length - 2) =
      packet := by
    rw [hlen, hframe]
    have : data.length + 4 - 2 = packet.length := by omega
    rw [this, List.take_left]
  refine ⟨hlen, by rw [htake, hpacket, MODBUS_ADDRESS], ?_⟩
  rw [htake, hlen, hframe]
  have h2 : data.length + 4 - 2 = packet.length := by omega
  have h1 : data.length + 4 - 1 = packet.length + 1 := by omega
  rw [h2, h1, List.getD_append_right _ _ _ _ (Nat.le_refl _),
    List.getD_append_right _ _ _ _ (Nat.le_succ_of_le (Nat.le_refl _))]
  simp only [Nat.sub_self]
  have : packet.length + 1 - packet.length = 1 := by omega
  rw [this]
  simp only [List.getD_cons_zero, List.getD_cons_succ]
  exact (lo_or_hi_shift hcrc).symm

/-! ## Theorems: MODBUS response validation (C2) -/

/-- C2: the validation block of `sendCommand` checks, in order, length ≥ 3,
CRC, and the exception bit, but performs no function-code or size check: a
well-CRC'd non-exception response whose function code (here `0x06`) differs
from the request's (`0x03`, a `ReadHoldingRegisters`) is parsed and
returned, not rejected.  This refutes the claim's steps (4) and (5). -/
theorem sendCommand_accepts_wrong_function_code :
    (mkCommand 0x06 [0x00, 0x00, 0x00, 0x01]).getD 1 0 = 0x06 ∧
    sendCommandValidate 0x03 parseReadHoldingRegisters
        (mkCommand 0x06 [0x00, 0x00, 0x00, 0x01]) =
      ModbusOutcome.parsed [0x00, 0x00, 0x01] := by
  set_option maxRecDepth 8192 in decide

/-! ## Theorems: BLE client disconnect handling (C8) -/

/-- C8: on an OS-signalled disconnect with a request in flight, the handler
wipes both characteristics and the handshake state and drops the in-flight
response promise, but performs no settlement on it — in particular it does
not reject it with `Disconnected` (the awaiting caller is left to its own
timeout).  This refutes the claim's rejection clause. -/
theorem disconnect_drops_promise_without_reject :
    handleGattServerDisconnected ⟨true, true, true, true⟩ =
      (⟨false, false, false, false⟩, ([] : List PromiseAction)) := rfl

/-! ## Theorems: register scanner chunking and bisection (C3) -/

theorem splitRangeLoop_nil {start stop maxC : Nat} (h : ¬ (start < stop ∧ 0 < maxC)) :
    splitRangeLoop start stop maxC = [] := by
  rw [splitRangeLoop]
  exact dif_neg h

theorem splitRangeLoop_cons {start stop maxC : Nat} (h : start < stop ∧ 0 < maxC) :
    splitRangeLoop start stop maxC =
      ⟨start, start + min (stop - start) maxC⟩ ::
        splitRangeLoop (start + min (stop - start) maxC) stop maxC := by
  conv_lhs => rw [splitRangeLoop]
  exact dif_pos h

theorem splitRangeLoop_size :
    ∀ (n start stop maxC : Nat), stop - start ≤ n →
      ∀ c ∈ splitRangeLoop start stop maxC, c.stop - c.start ≤ maxC := by
  intro n
  induction n with
  | zero =>
    intro start stop maxC hle c hc
    rw [splitRangeLoop_nil (by omega)] at hc
    cases hc
  | succ m ih =>
    intro start stop maxC hle c hc
    by_cases hcond : start < stop ∧ 0 < maxC
    · rw [splitRangeLoop_cons hcond] at hc
      rcases List.mem_cons.mp hc with rfl | hc'
      · simp only []
        omega
      · exact ih (start + min (stop - start) maxC) stop maxC (by omega) c hc'
    · rw [splitRangeLoop_nil hcond] at hc
      cases hc

theorem splitRangeLoop_coverage :
    ∀ (n start stop maxC : Nat), 0 < maxC → stop - start ≤ n →
      (splitRangeLoop start stop maxC).flatMap rangeRegs =
        List.range' start (stop - start) := by
  intro n
  induction n with
  | zero =>
    intro start stop maxC hm hle
    rw [splitRangeLoop_nil (by omega)]
    have h0 : stop - start = 0 := by omega
    simp [h0]
  | succ m ih =>
    intro start stop maxC hm hle
    by_cases hcond : start < stop ∧ 0 < maxC
    · rw [splitRangeLoop_cons hcond, List.flatMap_cons]
      have h1 : 1 ≤ min (stop - start) maxC := by omega
      rw [ih (start + min (stop - start) maxC) stop maxC hm (by omega)]
      simp only [rangeRegs]
      have h2 : start + min (stop - start) maxC - start = min (stop - start) maxC := by omega
      rw [h2, List.range'_append_1]
      congr 1
      omega
    · rw [splitRangeLoop_nil hcond]
      have h0 : stop - start = 0 := by omega
      simp [h0]

theorem splitRangesToSize_coverage (ranges : List RegisterRange) (maxC : Nat)
    (hm : 0 < maxC) :
    (splitRangesToSize ranges maxC).flatMap rangeRegs = ranges.flatMap rangeRegs := by
  induction ranges with
  | nil => rfl
  | cons r rs ih =>
    simp only [splitRangesToSize, List.flatMap_cons, List.flatMap_append] at *
    rw [ih, splitRangeLoop_coverage (r.stop - r.start) r.start r.stop maxC hm (Nat.le_refl _)]
    rfl

/-- C3: the scanner splits every input range into chunks of at most 7
registers covering exactly the input ranges and processes them in a stack
discipline; a failing chunk of `n` registers is recorded unreadable when
`n = 1`, and otherwise is split at `mid = start + floor(n / 2)` into
`{start, mid}` and `{mid, end}`, both placed on top of the stack above the
untouched queued tail (so subdivisions are processed before it). -/
theorem scanner_bisection_stack :
    (∀ ranges, ∀ c ∈ (scanInit ranges).remainingRanges,
        c.stop - c.start ≤ MAX_REGISTERS_PER_REQUEST) ∧
    (∀ ranges, ((scanInit ranges).remainingRanges).flatMap rangeRegs =
        ranges.flatMap rangeRegs) ∧
    (∀ read s range rest, s.remainingRanges = range :: rest →
      read range.start (range.stop - range.start) = none →
      ((range.stop - range.start = 1 →
          scanStep read s =
            { remainingRanges := rest
              scannedRegisters := s.scannedRegisters + 1
              results := s.results ++ [(range.start, none)] }) ∧
       (range.stop - range.start ≠ 1 →
          scanStep read s =
            { s with remainingRanges :=
                ⟨range.start + (range.stop - range.start) / 2, range.stop⟩ ::
                  ⟨range.start, range.start + (range.stop - range.start) / 2⟩ :: rest }))) := by
  refine ⟨?_, ?_, ?_⟩
  · intro ranges c hc
    simp only [scanInit, splitRangesToSize, List.mem_flatMap] at hc
    obtain ⟨r, _, hc⟩ := hc
    exact splitRangeLoop_size (r.stop - r.start) r.start r.stop MAX_REGISTERS_PER_REQUEST
      (Nat.le_refl _) c hc
  · intro ranges
    exact splitRangesToSize_coverage ranges MAX_REGISTERS_PER_REQUEST (by decide)
  · intro read s range rest hrem hread
    constructor
    · intro h1
      rw [h1] at hread
      simp only [scanStep, hrem, h1, hread, if_pos]
    · intro h1
      simp only [scanStep, hrem, hread, if_neg h1]

/-- Witness for `scanner_bisection_stack`: a failed 7-register chunk
`{0, 7}` is split into `{3, 7}` and `{0, 3}` on top of the queued `{7, 10}`. -/
theorem scanner_bisection_stack_witness :
    scanStep (fun _ _ => none) ⟨[⟨0, 7⟩, ⟨7, 10⟩], 0, []⟩ =
      ⟨[⟨3, 7⟩, ⟨0, 3⟩, ⟨7, 10⟩], 0, []⟩ :=
  (scanner_bisection_stack.2.2 (fun _ _ => none) ⟨[⟨0, 7⟩, ⟨7, 10⟩], 0, []⟩
    ⟨0, 7⟩ [⟨7, 10⟩] rfl rfl).2 (by decide)

/-! ## Theorems: scan-result store upgrade-only policy (C7) -/

/-- C7: the store never replaces a `readable = true` entry by a
`readable = false` one: an upsert carrying `readable = false` for a key whose
stored entry is readable leaves the entry unchanged; every other upsert on
the key overwrites the entry's payload with the update, and other keys are
untouched. -/
theorem upsertScanResult_key_none (store : ScanStore) (record : ScanResultRecord)
    (hst : store record.deviceId record.register = none) :
    upsertScanResult store record record.deviceId record.register = some record := by
  unfold upsertScanResult
  rw [if_pos ⟨rfl, rfl⟩, hst]

theorem upsertScanResult_key_some (store : ScanStore) (record obj : ScanResultRecord)
    (hst : store record.deviceId record.register = some obj) :
    upsertScanResult store record record.deviceId record.register =
      if record.readable = false ∧ obj.readable = true then some obj
      else some { obj with
        readable := record.readable
        value := record.value
        scannedAt := record.scannedAt } := by
  unfold upsertScanResult
  rw [if_pos ⟨rfl, rfl⟩, hst]

theorem upsert_upgrade_only :
    (∀ (store : ScanStore) (record : ScanResultRecord) (d : String) (r : Nat) obj,
        store d r = some obj → obj.readable = true →
        ∃ obj', upsertScanResult store record d r = some obj' ∧ obj'.readable = true) ∧
    (∀ (store : ScanStore) (record : ScanResultRecord) obj,
        store record.deviceId record.register = some obj →
        obj.readable = true → record.readable = false →
        upsertScanResult store record record.deviceId record.register = some obj) ∧
    (∀ (store : ScanStore) (record : ScanResultRecord),
        (∀ obj, store record.deviceId record.register = some obj →
          obj.readable = true → record.readable = true) →
        ∃ obj', upsertScanResult store record record.deviceId record.register = some obj' ∧
          obj'.readable = record.readable ∧ obj'.value = record.value ∧
          obj'.scannedAt = record.scannedAt) ∧
    (∀ (store : ScanStore) (record : ScanResultRecord) (d : String) (r : Nat),
        ¬ (d = record.deviceId ∧ r = record.register) →
        upsertScanResult store record d r = store d r) := by
  refine ⟨?_, ?_, ?_, ?_⟩
  · intro store record d r obj hst hread
    by_cases hk : d = record.deviceId ∧ r = record.register
    · obtain ⟨rfl, rfl⟩ := hk
      rw [upsertScanResult_key_some store record obj hst]
      by_cases hg : record.readable = false ∧ obj.readable = true
      · rw [if_pos hg]
        exact ⟨obj, rfl, hread⟩
      · rw [if_neg hg]
        refine ⟨_, rfl, ?_⟩
        rcases Bool.eq_false_or_eq_true record.readable with ht | hf
        · exact ht
        · exact absurd ⟨hf, hread⟩ hg
    · unfold upsertScanResult
      rw [if_neg hk]
      exact ⟨obj, hst, hread⟩
  · intro store record obj hst hread hfalse
    rw [upsertScanResult_key_some store record obj hst, if_pos ⟨hfalse, hread⟩]
  · intro store record hguard
    cases hst : store record.deviceId record.register with
    | none => exact ⟨record, upsertScanResult_key_none store record hst, rfl, rfl, rfl⟩
    | some obj =>
      have hg : ¬ (record.readable = false ∧ obj.readable = true) := by
        rintro ⟨h1, h2⟩
        rw [hguard obj hst h2] at h1
        cases h1
      rw [upsertScanResult_key_some store record obj hst, if_neg hg]
      exact ⟨_, rfl, rfl, rfl, rfl⟩
  · intro store record d r hk
    unfold upsertScanResult
    rw [if_neg hk]

/-- Witness for `upsert_upgrade_only` (second part): a `readable = false`
upsert against a stored readable entry leaves it unchanged. -/
theorem upsert_upgrade_only_witness :
    upsertScanResult
        (fun d r => if d = "dev" ∧ r = 5 then
          some ⟨"dev", 5, true, some [1, 2], 10⟩ else none)
        ⟨"dev", 5, false, none, 20⟩ "dev" 5 =
      some ⟨"dev", 5, true, some [1, 2], 10⟩ :=
  upsert_upgrade_only.2.1
    (fun d r => if d = "dev" ∧ r = 5 then some ⟨"dev", 5, true, some [1, 2], 10⟩ else none)
    ⟨"dev", 5, false, none, 20⟩ ⟨"dev", 5, true, some [1, 2], 10⟩
    (by simp) rfl rfl

/-! ## Theorems: pending-range calculation (C9) -/

theorem pendingLoop_mem :
    ∀ (rest : List Nat) (current endR a : Nat),
      List.Sorted (· < ·) rest → (∀ x ∈ rest, current ≤ x) →
      (coveredBy (pendingLoop endR current rest) a ↔
        (current ≤ a ∧ a < endR ∧ a ∉ rest)) := by
  intro rest
  induction rest with
  | nil =>
    intro current endR a _ _
    simp only [pendingLoop, List.not_mem_nil, not_false_eq_true, and_true]
    by_cases h : current < endR
    · rw [if_pos h]
      constructor
      · rintro ⟨r, hr, h1, h2⟩
        rcases List.mem_singleton.mp hr with rfl
        exact ⟨h1, h2⟩
      · rintro ⟨h1, h2⟩
        exact ⟨_, List.mem_singleton_self _, h1, h2⟩
    · rw [if_neg h]
      constructor
      · rintro ⟨r, hr, _⟩
        cases hr
      · rintro ⟨h1, h2⟩
        omega
  | cons s rest ih =>
    intro current endR a hsorted hmin
    have hs_lt : ∀ x ∈ rest, s < x := (List.sorted_cons.mp hsorted).1
    have hrest_sorted : List.Sorted (· < ·) rest := (List.sorted_cons.mp hsorted).2
    have hs_min : current ≤ s := hmin s (List.mem_cons_self s rest)
    simp only [pendingLoop]
    by_cases hse : s < endR
    · rw [if_pos hse]
      have hihs := ih (s + 1) endR a hrest_sorted (fun x hx => hs_lt x hx)
      constructor
      · rintro ⟨r, hr, h1, h2⟩
        rcases List.mem_append.mp hr with hrA | hrB
        · by_cases hgap : s > current
          · rw [if_pos hgap] at hrA
            rcases List.mem_singleton.mp hrA with rfl
            have h1' : current ≤ a := h1
            have h2' : a < s := h2
            refine ⟨h1', by omega, ?_⟩
            simp only [List.mem_cons, not_or]
            exact ⟨by omega, fun hmem => by have := hs_lt a hmem; omega⟩
          · rw [if_neg hgap] at hrA
            cases hrA
        · have := hihs.mp ⟨r, hrB, h1, h2⟩
          refine ⟨by omega, this.2.1, ?_⟩
          simp only [List.mem_cons, not_or]
          exact ⟨by omega, this.2.2⟩
      · rintro ⟨h1, h2, h3⟩
        simp only [List.mem_cons, not_or] at h3
        by_cases ha : a < s
        · have hgap : s > current := by omega
          rw [if_pos hgap]
          exact ⟨⟨current, s⟩, List.mem_append_left _ (List.mem_singleton_self _), h1, ha⟩
        · have : s + 1 ≤ a := by
            rcases h3 with ⟨hne, _⟩
            omega
          obtain ⟨r, hr, hra, hrb⟩ := hihs.mpr ⟨this, h2, h3.2⟩
          exact ⟨r, List.mem_append_right _ hr, hra, hrb⟩
    · rw [if_neg hse]
      have hnotin : a < endR → a ∉ s :: rest := by
        intro ha
        simp only [List.mem_cons, not_or]
        exact ⟨by omega, fun hmem => by have := hs_lt a hmem; omega⟩
      by_cases h : current < endR
      · rw [if_pos h]
        constructor
        · rintro ⟨r, hr, h1, h2⟩
          rcases List.mem_singleton.mp hr with rfl
          exact ⟨h1, h2, hnotin h2⟩
        · rintro ⟨h1, h2, _⟩
          exact ⟨_, List.mem_singleton_self _, h1, h2⟩
      · rw [if_neg h]
        constructor
        · rintro ⟨r, hr, _⟩
          cases hr
        · rintro ⟨h1, h2, _⟩
          omega

theorem calculatePendingRanges_mem (scanned : List Nat) :
    ∀ (startR endR a : Nat), List.Sorted (· < ·) scanned →
      (coveredBy (calculatePendingRanges startR endR scanned) a ↔
        (startR ≤ a ∧ a < endR ∧ a ∉ scanned)) := by
  induction scanned with
  | nil =>
    intro startR endR a _
    exact pendingLoop_mem [] startR endR a (by simp) (by simp)
  | cons s rest ih =>
    intro startR endR a hsorted
    have hs_lt : ∀ x ∈ rest, s < x := (List.sorted_cons.mp hsorted).1
    have hrest_sorted : List.Sorted (· < ·) rest := (List.sorted_cons.mp hsorted).2
    unfold calculatePendingRanges
    rw [List.findIdx_cons]
    by_cases hge : s ≥ startR
    · have : (decide (s ≥ startR)) = true := by simpa using hge
      rw [this]
      simp only [cond_true, List.drop_zero]
      exact pendingLoop_mem (s :: rest) startR endR a hsorted
        (by
          intro x hx
          rcases List.mem_cons.mp hx with rfl | hx'
          · exact hge
          · have := hs_lt x hx'
            omega)
    · have : (decide (s ≥ startR)) = false := by simpa using hge
      rw [this]
      simp only [cond_false, List.drop_succ_cons]
      have hcalc := ih startR endR a hrest_sorted
      unfold calculatePendingRanges at hcalc
      rw [hcalc]
      have hsne : startR ≤ a → a ≠ s := by omega
      constructor
      · rintro ⟨h1, h2, h3⟩
        refine ⟨h1, h2, ?_⟩
        simp only [List.mem_cons, not_or]
        exact ⟨hsne h1, h3⟩
      · rintro ⟨h1, h2, h3⟩
        simp only [List.mem_cons, not_or] at h3
        exact ⟨h1, h2, h3.2⟩

/-- C9 counterexample: the claim's second example is wrong on the code —
`calculatePendingRanges 0 10 [0,1,2,3,4]` returns `[{5,10}]` (exactly as the
spec's scanner-resume scenario says), not `[]`. -/
theorem calculatePendingRanges_example_false :
    calculatePendingRanges 0 10 [0, 1, 2, 3, 4] ≠ [] ∧
    calculatePendingRanges 0 10 [0, 1, 2, 3, 4] = [⟨5, 10⟩] := by
  exact ⟨by decide, by decide⟩

/-- C9 (amended: the second example's value is `[{5,10}]`, not `[]`):
`calculatePendingRanges start end scanned_sorted` covers exactly the
addresses of `[start, end)` not in `scanned_sorted`, and
`calculatePendingRanges 0 10 [] = [{0,10}]`,
`calculatePendingRanges 0 10 [0,1,2,3,4] = [{5,10}]`,
`calculatePendingRanges 0 10 [2,5,6,7] = [{0,2},{3,5},{8,10}]`. -/
theorem calculatePendingRanges_spec :
    (∀ (scanned : List Nat) (startR endR a : Nat),
        List.Sorted (· < ·) scanned →
        (coveredBy (calculatePendingRanges startR endR scanned) a ↔
          (startR ≤ a ∧ a < endR ∧ a ∉ scanned))) ∧
    calculatePendingRanges 0 10 [] = [⟨0, 10⟩] ∧
    calculatePendingRanges 0 10 [0, 1, 2, 3, 4] = [⟨5, 10⟩] ∧
    calculatePendingRanges 0 10 [2, 5, 6, 7] = [⟨0, 2⟩, ⟨3, 5⟩, ⟨8, 10⟩] :=
  ⟨fun scanned startR endR a h => calculatePendingRanges_mem scanned startR endR a h,
   by decide, by decide, by decide⟩

/-- Witness for `calculatePendingRanges_spec`: address 3 of `[0, 10)` is not
among the scanned `[2, 5, 6, 7]`, so the pending ranges cover it. -/
theorem calculatePendingRanges_spec_witness :
    coveredBy (calculatePendingRanges 0 10 [2, 5, 6, 7]) 3 :=
  (calculatePendingRanges_spec.1 [2, 5, 6, 7] 0 10 3 (by decide)).mpr
    ⟨by decide, by decide, by decide⟩

/-! ## Theorems: handshake message serialization (C10) -/

theorem foldl_add_eq (l : List Nat) : ∀ n, l.foldl (· + ·) n = n + l.sum := by
  induction l with
  | nil =>
    intro n
    simp
  | cons x xs ih =>
    intro n
    simp only [List.foldl_cons, ih, List.sum_cons]
    omega

theorem hi_or_lo {x : Nat} (h : x < 65536) :
    (((x >>> 8) &&& 0xff) <<< 8) ||| (x &&& 0xff) = x := by
  rw [Nat.or_comm]
  exact lo_or_hi_shift h

/-- C10: for every state byte and body of at most 255 bytes, the checksum
written by `toBytes` — the sum of the state byte, the length byte and the
body bytes — is at most 65535 and so fits the two trailing bytes untruncated,
and `parse (toBytes m)` succeeds, returning the same state and body. -/
theorem handshake_message_roundtrip (state : Nat) (body : List Nat)
    (hstate : state < 256) (hblen : body.length ≤ 255) (hbody : ∀ b ∈ body, b < 256) :
    (state :: body.length :: body).foldl (· + ·) 0 ≤ 65535 ∧
    handshakeParse (handshakeToBytes state body) = .ok (state, body) := by
  have hsum_eq : (state :: body.length :: body).foldl (· + ·) 0 =
      state + (body.length + body.sum) := by
    rw [foldl_add_eq]
    simp [List.sum_cons]
  have hbsum : body.sum ≤ body.length * 255 := by
    have := List.sum_le_card_nsmul body 255 (fun x hx => Nat.le_of_lt_succ (by
      have := hbody x hx
      omega))
    simpa [smul_eq_mul, Nat.mul_comm] using this
  have hbsum' : body.sum ≤ 255 * 255 := by
    calc body.sum ≤ body.length * 255 := hbsum
    _ ≤ 255 * 255 := Nat.mul_le_mul_right 255 hblen
  have hbound : (state :: body.length :: body).foldl (· + ·) 0 ≤ 65535 := by
    rw [hsum_eq]
    omega
  refine ⟨hbound, ?_⟩
  set S := (state :: body.length :: body).foldl (· + ·) 0 with hS
  have hSlt : S < 65536 := by omega
  have hcore : (state % 256 :: body.length % 256 :: body.map (· % 256)) =
      state :: body.length :: body := by
    rw [Nat.mod_eq_of_lt hstate, Nat.mod_eq_of_lt (by omega)]
    congr 1
    congr 1
    conv_rhs => rw [← List.map_id body]
    exact List.map_congr_left (fun b hb => Nat.mod_eq_of_lt (hbody b hb))
  have hmsg : handshakeToBytes state body =
      (0x2a :: 0x2a :: state :: body.length :: body) ++
        [(S >>> 8) &&& 0xff, S &&& 0xff] := by
    simp only [handshakeToBytes, hcore, hS]
    simp [List.cons_append]
  set front := 0x2a :: 0x2a :: state :: body.length :: body with hfront
  have hfrontlen : front.length = body.length + 4 := by simp [hfront]
  have hmsglen : (handshakeToBytes state body).length = body.length + 6 := by
    rw [hmsg]
    simp [hfrontlen]
  unfold handshakeParse
  rw [if_neg (by omega)]
  have hg0 : (handshakeToBytes state body).getD 0 0 = 0x2a := by
    rw [hmsg, hfront]
    rfl
  have hg1 : (handshakeToBytes state body).getD 1 0 = 0x2a := by
    rw [hmsg, hfront]
    rfl
  rw [if_neg (by
    rw [hg0, hg1]
    simp)]
  have htake : (handshakeToBytes state body).take ((handshakeToBytes state body).length - 2) =
      front := by
    rw [hmsglen, hmsg]
    exact List.take_left' (by omega)
  have hgd2 : (handshakeToBytes state body).getD ((handshakeToBytes state body).length - 2) 0 =
      (S >>> 8) &&& 0xff := by
    rw [hmsglen, hmsg]
    have : body.length + 6 - 2 = front.length := by omega
    rw [this, List.getD_append_right _ _ _ _ (Nat.le_refl _), Nat.sub_self]
    rfl
  have hgd1 : (handshakeToBytes state body).getD ((handshakeToBytes state body).length - 1) 0 =
      S &&& 0xff := by
    rw [hmsglen, hmsg]
    have : body.length + 6 - 1 = front.length + 1 := by omega
    rw [this, List.getD_append_right _ _ _ _ (by omega)]
    have : front.length + 1 - front.length = 1 := by omega
    rw [this]
    rfl
  have hsumcheck : (((handshakeToBytes state body).take
      ((handshakeToBytes state body).length - 2)).drop 2).foldl (· + ·) 0 = S := by
    rw [htake, hfront]
    rfl
  rw [if_neg (by
    rw [hsumcheck, hgd2, hgd1, hi_or_lo hSlt]
    simp)]
  have hgd2' : (handshakeToBytes state body).getD 2 0 = state := by
    rw [hmsg, hfront]
    rfl
  have hgd3 : (handshakeToBytes state body).getD 3 0 = body.length := by
    rw [hmsg, hfront]
    rfl
  rw [if_neg (by
    rw [hgd3, hmsglen]
    omega)]
  rw [hgd2', htake, hfront]
  rfl

/-- Witness for `handshake_message_roundtrip` at state 2, body `[1, 2, 3]`. -/
theorem handshake_message_roundtrip_witness :
    List.foldl (· + ·) 0 [2, 3, 1, 2, 3] ≤ 65535 ∧
    handshakeParse (handshakeToBytes 2 [1, 2, 3]) = .ok (2, [1, 2, 3]) :=
  handshake_message_roundtrip 2 [1, 2, 3] (by decide) (by decide) (by decide)

/-! ## Theorems: challenge handling (C6) -/

theorem drop8_take4_eq (l : List Nat) (h : 12 ≤ l.length) :
    (l.drop 8).take 4 = [l.getD 8 0, l.getD 9 0, l.getD 10 0, l.getD 11 0] := by
  apply List.ext_getElem
  · simp
    omega
  · intro i hi hi2
    have hi4 : i < 4 := by
      simp at hi2
      omega
    interval_cases i <;>
      (simp [List.getElem_take, List.getElem_drop]
       rw [List.getElem?_eq_getElem (by omega)]
       rfl)

/-- C6: receiving a state-1 CHALLENGE with 4-byte body `C` derives
`aes_iv = MD5(reverse C)` and `aes_key[i] = aes_iv[i] XOR shared_secret[i]`
for the 16 key bytes, and replies with a state-2 CHALLENGE_RESPONSE whose
body is bytes `aes_iv[8..12]`. -/
theorem handleChallenge_spec (md5f : List Nat → List Nat) (sharedSecret C : List Nat)
    (hC : C.length = 4) (hmd5 : (md5f C.reverse).length = 16) :
    ∃ aesIv aesKey reply,
      handleChallenge md5f sharedSecret C = .ok ((aesIv, aesKey), reply) ∧
      aesIv = md5f C.reverse ∧
      reply.1 = 2 ∧
      reply.2 = [aesIv.getD 8 0, aesIv.getD 9 0, aesIv.getD 10 0, aesIv.getD 11 0] ∧
      aesKey.length = 16 ∧
      (∀ i, i < 16 → aesKey.getD i 0 = aesIv.getD i 0 ^^^ sharedSecret.getD i 0) := by
  have hne : ¬ C.length ≠ 4 := by omega
  refine ⟨md5f C.reverse,
    (List.range 16).map (fun i => (md5f C.reverse).getD i 0 ^^^ sharedSecret.getD i 0),
    (2, ((md5f C.reverse).drop 8).take 4), ?_, rfl, rfl, ?_, ?_, ?_⟩
  · simp only [handleChallenge, setAesKey, if_neg hne]
  · exact drop8_take4_eq (md5f C.reverse) (by omega)
  · simp
  · intro i hi
    rw [List.getD_eq_getElem _ _ (by simpa using hi)]
    simp

/-- Witness for `handleChallenge_spec` with `md5f` returning the 16 bytes
`0..15`, shared secret `5` sixteen times, and challenge `[1, 2, 3, 4]`. -/
theorem handleChallenge_spec_witness :
    ∃ aesIv aesKey reply,
      handleChallenge (fun _ => List.range 16) (List.replicate 16 5) [1, 2, 3, 4] =
        .ok ((aesIv, aesKey), reply) ∧
      aesIv = (fun _ => List.range 16) (List.reverse [1, 2, 3, 4]) ∧
      reply.1 = 2 ∧
      reply.2 = [aesIv.getD 8 0, aesIv.getD 9 0, aesIv.getD 10 0, aesIv.getD 11 0] ∧
      aesKey.length = 16 ∧
      (∀ i, i < 16 →
        aesKey.getD i 0 = aesIv.getD i 0 ^^^ (List.replicate 16 5).getD i 0) :=
  handleChallenge_spec (fun _ => List.range 16) (List.replicate 16 5) [1, 2, 3, 4]
    (by decide) (by decide)

/-! ## Theorems: AES-CBC codec building blocks -/

theorem xorBytes_length_eq : ∀ (a b : List Nat), a.length = b.length →
    (xorBytes a b).length = a.length := by
  intro a
  induction a with
  | nil => intro b _; rfl
  | cons x xs ih =>
    intro b h
    cases b with
    | nil => simp at h
    | cons y ys =>
      simp only [xorBytes, List.zipWith_cons_cons, List.length_cons] at *
      rw [ih ys (by omega)]

theorem xorBytes_cancel : ∀ (a b : List Nat), a.length = b.length →
    xorBytes (xorBytes a b) b = a := by
  intro a
  induction a with
  | nil =>
    intro b h
    cases b with
    | nil => rfl
    | cons y ys => simp at h
  | cons x xs ih =>
    intro b h
    cases b with
    | nil => simp at h
    | cons y ys =>
      simp only [xorBytes, List.zipWith_cons_cons, List.length_cons] at *
      rw [Nat.xor_assoc, Nat.xor_self, Nat.xor_zero, ih ys (by omega)]

theorem toBlocksGo_congr : ∀ (f1 : Nat) (l : List Nat) (f2 : Nat),
    l.length ≤ f1 → l.length ≤ f2 → toBlocksGo f1 l = toBlocksGo f2 l := by
  intro f1
  induction f1 with
  | zero =>
    intro l f2 h1 _
    cases l with
    | nil => cases f2 <;> rfl
    | cons x xs => simp at h1
  | succ f ih =>
    intro l f2 h1 h2
    cases l with
    | nil => cases f2 <;> rfl
    | cons x xs =>
      cases f2 with
      | zero => simp at h2
      | succ f2' =>
        simp only [toBlocksGo]
        congr 1
        apply ih
        · simp only [List.length_drop, List.length_cons] at *
          omega
        · simp only [List.length_drop, List.length_cons] at *
          omega

theorem toBlocks_cons (x : Nat) (xs : List Nat) :
    toBlocks (x :: xs) = (x :: xs).take 16 :: toBlocks ((x :: xs).drop 16) := by
  show toBlocksGo (xs.length + 1) (x :: xs) = _
  simp only [toBlocksGo]
  congr 1
  apply toBlocksGo_congr
  · simp only [List.length_drop, List.length_cons]
    omega
  · exact Nat.le_refl _

theorem toBlocks_eq (l : List Nat) :
    toBlocks l = if l = [] then [] else l.take 16 :: toBlocks (l.drop 16) := by
  cases l with
  | nil => rfl
  | cons x xs =>
    rw [toBlocks_cons]
    simp

theorem toBlocks_flatten (bs : List (List Nat)) (hb : ∀ b ∈ bs, b.length = 16) :
    toBlocks bs.flatten = bs := by
  induction bs with
  | nil => rfl
  | cons b rest ih =>
    have hblen : b.length = 16 := hb b (List.mem_cons_self _ _)
    have hrest : ∀ x ∈ rest, x.length = 16 := fun x hx => hb x (List.mem_cons_of_mem _ hx)
    rw [List.flatten_cons, toBlocks_eq]
    have hne : b ++ rest.flatten ≠ [] := by
      intro h
      have := congrArg List.length h
      simp [hblen] at this
    rw [if_neg hne, List.take_left' hblen, List.drop_left' hblen, ih hrest]

theorem flatten_toBlocks : ∀ (n : Nat) (l : List Nat), l.length ≤ n →
    (toBlocks l).flatten = l := by
  intro n
  induction n with
  | zero =>
    intro l h
    cases l with
    | nil => rfl
    | cons x xs => simp at h
  | succ m ih =>
    intro l h
    cases l with
    | nil => rfl
    | cons x xs =>
      rw [toBlocks_cons, List.flatten_cons,
        ih ((x :: xs).drop 16) (by
          simp only [List.length_drop, List.length_cons] at *
          omega),
        List.take_append_drop]

theorem toBlocks_blocks : ∀ (n : Nat) (l : List Nat), l.length ≤ n →
    l.length % 16 = 0 → ∀ b ∈ toBlocks l, b.length = 16 := by
  intro n
  induction n with
  | zero =>
    intro l h hm b hb
    cases l with
    | nil => cases hb
    | cons x xs => simp at h
  | succ m ih =>
    intro l h hm b hb
    cases l with
    | nil => cases hb
    | cons x xs =>
      rw [toBlocks_cons] at hb
      have hge : 16 ≤ (x :: xs).length := by
        simp only [List.length_cons] at *
        omega
      rcases List.mem_cons.mp hb with rfl | hb'
      · simp only [List.length_take]
        omega
      · refine ih ((x :: xs).drop 16) ?_ ?_ b hb'
        · simp only [List.length_drop, List.length_cons] at *
          omega
        · simp only [List.length_drop, List.length_cons] at *
          omega

theorem flatten_length_blocks (bs : List (List Nat)) (hb : ∀ b ∈ bs, b.length = 16) :
    bs.flatten.length = 16 * bs.length := by
  induction bs with
  | nil => rfl
  | cons b rest ih =>
    simp only [List.flatten_cons, List.length_append, List.length_cons,
      hb b (List.mem_cons_self _ _), ih (fun x hx => hb x (List.mem_cons_of_mem _ hx))]
    ring

theorem pkcs7Pad_length (data : List Nat) :
    (pkcs7Pad data).length = 16 * (data.length / 16 + 1) := by
  simp only [pkcs7Pad, List.length_append, List.length_replicate]
  omega

theorem pkcs7Pad_mod (data : List Nat) : (pkcs7Pad data).length % 16 = 0 := by
  rw [pkcs7Pad_length]
  omega

theorem cbcEncryptBlocks_length (E : List Nat → List Nat) :
    ∀ (bs : List (List Nat)) (prev : List Nat),
      (cbcEncryptBlocks E prev bs).length = bs.length := by
  intro bs
  induction bs with
  | nil => intro prev; rfl
  | cons b rest ih =>
    intro prev
    simp only [cbcEncryptBlocks, List.length_cons, ih]

theorem cbcEncryptBlocks_blocks (E : List Nat → List Nat)
    (hElen : ∀ b, b.length = 16 → (E b).length = 16) :
    ∀ (bs : List (List Nat)) (prev : List Nat), prev.length = 16 →
      (∀ b ∈ bs, b.length = 16) →
      ∀ c ∈ cbcEncryptBlocks E prev bs, c.length = 16 := by
  intro bs
  induction bs with
  | nil => intro prev _ _ c hc; cases hc
  | cons b rest ih =>
    intro prev hprev hb c hc
    have hblen : b.length = 16 := hb b (List.mem_cons_self _ _)
    have hc1 : (E (xorBytes b prev)).length = 16 :=
      hElen _ (by rw [xorBytes_length_eq b prev (by omega)]; exact hblen)
    simp only [cbcEncryptBlocks] at hc
    rcases List.mem_cons.mp hc with rfl | hc'
    · exact hc1
    · exact ih (E (xorBytes b prev)) hc1
        (fun x hx => hb x (List.mem_cons_of_mem _ hx)) c hc'

theorem cbcDecrypt_cbcEncrypt (E D : List Nat → List Nat)
    (hED : ∀ b, b.length = 16 → D (E b) = b)
    (hElen : ∀ b, b.length = 16 → (E b).length = 16) :
    ∀ (bs : List (List Nat)) (prev : List Nat), prev.length = 16 →
      (∀ b ∈ bs, b.length = 16) →
      cbcDecryptBlocks D prev (cbcEncryptBlocks E prev bs) = bs := by
  intro bs
  induction bs with
  | nil => intro prev _ _; rfl
  | cons b rest ih =>
    intro prev hprev hb
    have hblen : b.length = 16 := hb b (List.mem_cons_self _ _)
    have hxlen : (xorBytes b prev).length = 16 := by
      rw [xorBytes_length_eq b prev (by omega)]; exact hblen
    simp only [cbcEncryptBlocks, cbcDecryptBlocks]
    rw [hED _ hxlen, xorBytes_cancel b prev (by omega),
      ih (E (xorBytes b prev)) (hElen _ hxlen)
        (fun x hx => hb x (List.mem_cons_of_mem _ hx))]

theorem cbcDecryptBlocks_append (D : List Nat → List Nat) :
    ∀ (xs ys : List (List Nat)) (prev : List Nat),
      cbcDecryptBlocks D prev (xs ++ ys) =
        cbcDecryptBlocks D prev xs ++ cbcDecryptBlocks D (xs.getLastD prev) ys := by
  intro xs
  induction xs with
  | nil => intro ys prev; rfl
  | cons x xs ih =>
    intro ys prev
    simp only [List.cons_append, cbcDecryptBlocks, List.getLastD_cons, List.append_eq, ih]

theorem getLastD_mem {α : Type} : ∀ (l : List α) (d : α), l ≠ [] → l.getLastD d ∈ l := by
  intro l
  induction l with
  | nil => intro d h; cases h rfl
  | cons x xs ih =>
    intro d _
    rw [List.getLastD_cons]
    cases hxs : xs with
    | nil => simp
    | cons y ys =>
      rw [← hxs]
      exact List.mem_cons_of_mem x (ih x (by simp [hxs]))

theorem getLastD_irrel {α : Type} : ∀ (l : List α) (d1 d2 : α), l ≠ [] →
    l.getLastD d1 = l.getLastD d2 := by
  intro l
  induction l with
  | nil => intro d1 d2 h; cases h rfl
  | cons x xs ih =>
    intro d1 d2 _
    rw [List.getLastD_cons, List.getLastD_cons]

theorem flatten_drop_last : ∀ (bs : List (List Nat)),
    (∀ b ∈ bs, b.length = 16) → bs ≠ [] →
    bs.flatten.drop (bs.flatten.length - 16) = bs.getLastD [] := by
  intro bs
  induction bs with
  | nil => intro _ h; cases h rfl
  | cons b rest ih =>
    intro hb _
    have hblen : b.length = 16 := hb b (List.mem_cons_self _ _)
    have hrest : ∀ x ∈ rest, x.length = 16 := fun x hx => hb x (List.mem_cons_of_mem _ hx)
    cases rest with
    | nil =>
      simp only [List.flatten_cons, List.flatten_nil, List.append_nil, List.getLastD_cons]
      rw [hblen]
      simp
    | cons b2 rest' =>
      have hlen2 : (b2 :: rest').flatten.length = 16 * (b2 :: rest').length :=
        flatten_length_blocks _ hrest
      have hge : 16 ≤ (b2 :: rest').flatten.length := by
        rw [hlen2]
        simp only [List.length_cons]
        omega
      rw [List.flatten_cons]
      have harith : (b ++ (b2 :: rest').flatten).length - 16 =
          b.length + ((b2 :: rest').flatten.length - 16) := by
        simp only [List.length_append, hblen]
        omega
      rw [harith, List.drop_append, ih hrest (by simp)]
      conv_rhs => rw [List.getLastD_cons]
      exact getLastD_irrel (b2 :: rest') [] b (by simp)

theorem subtleEncrypt_length (E : List Nat → List Nat)
    (hElen : ∀ b, b.length = 16 → (E b).length = 16) (iv data : List Nat)
    (hiv : iv.length = 16) :
    (subtleEncrypt E iv data).length = (pkcs7Pad data).length := by
  have hbs : ∀ b ∈ toBlocks (pkcs7Pad data), b.length = 16 :=
    toBlocks_blocks (pkcs7Pad data).length (pkcs7Pad data) (Nat.le_refl _) (pkcs7Pad_mod data)
  have h1 : (toBlocks (pkcs7Pad data)).flatten = pkcs7Pad data :=
    flatten_toBlocks (pkcs7Pad data).length _ (Nat.le_refl _)
  have h2 := flatten_length_blocks _ hbs
  rw [h1] at h2
  unfold subtleEncrypt
  rw [flatten_length_blocks _
      (cbcEncryptBlocks_blocks E hElen (toBlocks (pkcs7Pad data)) iv hiv hbs),
    cbcEncryptBlocks_length]
  omega

/-- The fabricated-pad-block decryption trick of `aesDecrypt`, on the output
of the PKCS#7 primitive: appending the first ciphertext block of the
encryption (keyed by the last ciphertext block as IV) of a full pad block
makes the PKCS#7 primitive accept and return the padded plaintext whole. -/
theorem subtle_null_roundtrip (E D : List Nat → List Nat)
    (hED : ∀ b, b.length = 16 → D (E b) = b)
    (hElen : ∀ b, b.length = 16 → (E b).length = 16)
    (iv data : List Nat) (hiv : iv.length = 16) :
    subtleDecrypt D iv
      (subtleEncrypt E iv data ++
        (subtleEncrypt E ((subtleEncrypt E iv data).drop
          ((subtleEncrypt E iv data).length - 16)) (List.replicate 16 16)).take 16) =
      some (pkcs7Pad data) := by
  have hbs : ∀ b ∈ toBlocks (pkcs7Pad data), b.length = 16 :=
    toBlocks_blocks (pkcs7Pad data).length (pkcs7Pad data) (Nat.le_refl _) (pkcs7Pad_mod data)
  have hflat : (toBlocks (pkcs7Pad data)).flatten = pkcs7Pad data :=
    flatten_toBlocks (pkcs7Pad data).length _ (Nat.le_refl _)
  set bs := toBlocks (pkcs7Pad data) with hbs_def
  set cs := cbcEncryptBlocks E iv bs with hcs_def
  have hcs : ∀ c ∈ cs, c.length = 16 := cbcEncryptBlocks_blocks E hElen bs iv hiv hbs
  have hct : subtleEncrypt E iv data = cs.flatten := rfl
  have hpadpos : 0 < (pkcs7Pad data).length := by
    rw [pkcs7Pad_length]
    omega
  have hbsne : bs ≠ [] := by
    rw [hbs_def, toBlocks_eq, if_neg (by
      intro h
      rw [h] at hpadpos
      simp at hpadpos)]
    simp
  have hcsne : cs ≠ [] := by
    intro h
    have := cbcEncryptBlocks_length E bs iv
    rw [← hcs_def, h] at this
    exact hbsne (List.eq_nil_of_length_eq_zero this.symm)
  set L := cs.getLastD [] with hL_def
  have hL16 : L.length = 16 := hcs L (getLastD_mem cs [] hcsne)
  have hlast : (subtleEncrypt E iv data).drop ((subtleEncrypt E iv data).length - 16) = L := by
    rw [hct]
    exact flatten_drop_last cs hcs hcsne
  set p16 : List Nat := List.replicate 16 16 with hp16_def
  have hp16len : p16.length = 16 := by simp [hp16_def]
  have hpadp16 : pkcs7Pad p16 = p16 ++ p16 := by
    simp [pkcs7Pad, hp16_def]
  have htb : toBlocks (pkcs7Pad p16) = [p16, p16] := by
    rw [hpadp16]
    have hfl : p16 ++ p16 = ([p16, p16] : List (List Nat)).flatten := by simp
    rw [hfl, toBlocks_flatten]
    intro b hb
    rcases List.mem_cons.mp hb with rfl | hb'
    · exact hp16len
    · rcases List.mem_singleton.mp hb' with rfl
      exact hp16len
  have hx16 : (xorBytes p16 L).length = 16 := by
    rw [xorBytes_length_eq p16 L (by omega)]
    exact hp16len
  have hc1len : (E (xorBytes p16 L)).length = 16 := hElen _ hx16
  have hF : (subtleEncrypt E L p16).take 16 = E (xorBytes p16 L) := by
    unfold subtleEncrypt
    rw [htb]
    simp only [cbcEncryptBlocks, List.flatten_cons]
    exact List.take_left' hc1len
  rw [hlast, hF, hct]
  have hctlen : cs.flatten.length = 16 * cs.length := flatten_length_blocks cs hcs
  have hcs_app : ∀ c ∈ cs ++ [E (xorBytes p16 L)], c.length = 16 := by
    intro c hc
    rcases List.mem_append.mp hc with hc' | hc'
    · exact hcs c hc'
    · rcases List.mem_singleton.mp hc' with rfl
      exact hc1len
  unfold subtleDecrypt
  rw [if_pos (by
    constructor
    · simp only [List.length_append, hctlen, hc1len]
      omega
    · simp only [List.length_append, hctlen, hc1len]
      have : 0 < cs.length := List.length_pos.mpr hcsne
      omega)]
  have happ : cs.flatten ++ E (xorBytes p16 L) = (cs ++ [E (xorBytes p16 L)]).flatten := by
    simp
  rw [happ, toBlocks_flatten _ hcs_app, cbcDecryptBlocks_append,
    cbcDecrypt_cbcEncrypt E D hED hElen bs iv hiv hbs,
    getLastD_irrel cs iv [] hcsne, ← hL_def]
  simp only [cbcDecryptBlocks]
  rw [hED _ hx16, xorBytes_cancel p16 L (by omega)]
  rw [List.flatten_append, hflat]
  simp only [List.flatten_cons, List.flatten_nil, List.append_nil]
  unfold pkcs7Unpad
  have hgl : p16.getLast? = some 16 := by
    rw [hp16_def]
    rfl
  have hptlen : (pkcs7Pad data ++ p16).length = (pkcs7Pad data).length + 16 := by
    simp [hp16len]
  have hdrop : (pkcs7Pad data ++ p16).drop ((pkcs7Pad data ++ p16).length - 16) = p16 := by
    rw [hptlen]
    have he : (pkcs7Pad data).length + 16 - 16 = (pkcs7Pad data).length := by omega
    rw [he, List.drop_left]
  have htake16 : (pkcs7Pad data ++ p16).take ((pkcs7Pad data ++ p16).length - 16) =
      pkcs7Pad data := by
    rw [hptlen]
    have he : (pkcs7Pad data).length + 16 - 16 = (pkcs7Pad data).length := by omega
    rw [he, List.take_left]
  have hcond : (1 : Nat) ≤ 16 ∧ (16 : Nat) ≤ 16 ∧ 16 ≤ (pkcs7Pad data ++ p16).length ∧
      ((pkcs7Pad data ++ p16).drop ((pkcs7Pad data ++ p16).length - 16)).all (· = 16) := by
    refine ⟨by norm_num, by norm_num, by rw [hptlen]; omega, ?_⟩
    rw [hdrop, hp16_def]
    decide
  simp only [List.getLast?_append, hgl, Option.or_some]
  rw [if_pos hcond, htake16]

/-- Recombining the two big-endian length-prefix bytes recovers the
plaintext length modulo 2^16. -/
theorem lenBytes_recombine (x : Nat) :
    (((x >>> 8) &&& 0xff) <<< 8) ||| (x &&& 0xff) = x % 65536 := by
  have e255 : (0xff : Nat) = 2 ^ 8 - 1 := by norm_num
  have e1 : x &&& 0xff = x % 256 := by
    rw [e255, Nat.and_pow_two_sub_one_eq_mod]
  have e2 : (x >>> 8) &&& 0xff = x / 256 % 256 := by
    rw [Nat.shiftRight_eq_div_pow, e255, Nat.and_pow_two_sub_one_eq_mod]
  have e3 : (x / 256 % 256) <<< 8 = 2 ^ 8 * (x / 256 % 256) := by
    rw [Nat.shiftLeft_eq]
    ring
  rw [e1, e2, e3, ← Nat.mul_add_lt_is_or (show x % 256 < 2 ^ 8 by omega)]
  omega

theorem aesEncrypt_some (E md5f : List Nat → List Nat) (ivSeed data v : List Nat) :
    aesEncrypt E md5f ivSeed data (some v) =
      ((data.length >>> 8) &&& 0xff) :: (data.length &&& 0xff) ::
        subtleEncrypt E v data := by
  simp [aesEncrypt]

theorem aesEncrypt_none (E md5f : List Nat → List Nat) (ivSeed data : List Nat) :
    aesEncrypt E md5f ivSeed data none =
      ((data.length >>> 8) &&& 0xff) :: (data.length &&& 0xff) ::
        (ivSeed ++ subtleEncrypt E (md5f ivSeed) data) := by
  simp [aesEncrypt]

theorem aesDecrypt_some (E D md5f : List Nat → List Nat) (a b : Nat) (ct v : List Nat)
    (h16 : 16 ≤ ct.length) :
    aesDecrypt E D md5f (a :: b :: ct) (some v) =
      match subtleDecrypt D v
          (ct ++ (subtleEncrypt E (ct.drop (ct.length - 16)) (List.replicate 16 16)).take 16) with
      | none => none
      | some decrypted => some (decrypted.take ((a <<< 8) ||| b)) := by
  have hlb : (a :: b :: ct).drop ((a :: b :: ct).length - 16) = ct.drop (ct.length - 16) := by
    have he : (a :: b :: ct).length - 16 = ([a, b] : List Nat).length + (ct.length - 16) := by
      simp only [List.length_cons, List.length_nil]
      omega
    rw [he]
    show List.drop (([a, b] : List Nat).length + (ct.length - 16)) ([a, b] ++ ct) =
      List.drop (ct.length - 16) ct
    exact List.drop_append _
  simp only [aesDecrypt]
  rw [if_neg (by simp only [List.length_cons]; omega)]
  simp only [hlb, List.getD_cons_zero, List.getD_cons_succ, List.drop_succ_cons,
    List.drop_zero]

theorem aesDecrypt_none (E D md5f : List Nat → List Nat) (a b : Nat) (seed ct : List Nat)
    (hseed : seed.length = 4) (h16 : 16 ≤ ct.length) :
    aesDecrypt E D md5f (a :: b :: (seed ++ ct)) none =
      match subtleDecrypt D (md5f seed)
          (ct ++ (subtleEncrypt E (ct.drop (ct.length - 16)) (List.replicate 16 16)).take 16) with
      | none => none
      | some decrypted => some (decrypted.take ((a <<< 8) ||| b)) := by
  have hlb : (a :: b :: (seed ++ ct)).drop ((a :: b :: (seed ++ ct)).length - 16) =
      ct.drop (ct.length - 16) := by
    have he : (a :: b :: (seed ++ ct)).length - 16 =
        (a :: b :: seed).length + (ct.length - 16) := by
      simp only [List.length_cons, List.length_append, hseed]
      omega
    rw [he]
    show List.drop ((a :: b :: seed).length + (ct.length - 16)) ((a :: b :: seed) ++ ct) =
      List.drop (ct.length - 16) ct
    exact List.drop_append _
  have hdrop2take4 : ((a :: b :: (seed ++ ct)).drop 2).take 4 = seed := by
    simp only [List.drop_succ_cons, List.drop_zero]
    exact List.take_left' hseed
  have hdrop6 : (a :: b :: (seed ++ ct)).drop 6 = ct := by
    rw [show (a :: b :: (seed ++ ct) : List Nat) = (a :: b :: seed) ++ ct from by simp]
    exact List.drop_left' (by simp [hseed])
  simp only [aesDecrypt]
  rw [if_neg (by simp only [List.length_cons]; omega)]
  simp only [hlb, hdrop2take4, hdrop6, List.getD_cons_zero, List.getD_cons_succ]

/-- Master round-trip for the null-padded AES-CBC framing: decrypting an
`aesEncrypt` output recovers the padded plaintext truncated to the 16-bit
value recorded in the length prefix. -/
theorem aesDecrypt_aesEncrypt (E D md5f : List Nat → List Nat)
    (hED : ∀ b, b.length = 16 → D (E b) = b)
    (hElen : ∀ b, b.length = 16 → (E b).length = 16)
    (ivSeed data : List Nat) (iv : Option (List Nat))
    (hiv : ∀ v, iv = some v → v.length = 16)
    (hmd5 : ∀ x, (md5f x).length = 16)
    (hseed : ivSeed.length = 4) :
    aesDecrypt E D md5f (aesEncrypt E md5f ivSeed data iv) iv =
      some ((pkcs7Pad data).take (data.length % 65536)) := by
  cases iv with
  | some v =>
    have hv : v.length = 16 := hiv v rfl
    have hct16 : 16 ≤ (subtleEncrypt E v data).length := by
      rw [subtleEncrypt_length E hElen v data hv, pkcs7Pad_length]
      omega
    rw [aesEncrypt_some, aesDecrypt_some E D md5f _ _ _ v hct16,
      subtle_null_roundtrip E D hED hElen v data hv]
    simp only [lenBytes_recombine]
  | none =>
    have hv : (md5f ivSeed).length = 16 := hmd5 ivSeed
    have hct16 : 16 ≤ (subtleEncrypt E (md5f ivSeed) data).length := by
      rw [subtleEncrypt_length E hElen _ data hv, pkcs7Pad_length]
      omega
    rw [aesEncrypt_none, aesDecrypt_none E D md5f _ _ ivSeed _ hseed hct16,
      subtle_null_roundtrip E D hED hElen (md5f ivSeed) data hv]
    simp only [lenBytes_recombine]

/-! ## Theorems: AES-CBC claim C4 (round-trip and invariants) -/

/-- C4 counterexample: at `|p| = 65536` the 2-byte big-endian length prefix
wraps to 0, so decrypt returns `[]`, not `p` — the round-trip fails for
plaintexts of length 65536 and beyond (here with the identity block cipher
and a given IV). -/
theorem aes_roundtrip_counterexample :
    aesDecrypt id id (fun _ => List.replicate 16 0)
        (aesEncrypt id (fun _ => List.replicate 16 0) [0, 0, 0, 0]
          (List.replicate 65536 0) (some (List.replicate 16 0)))
        (some (List.replicate 16 0)) ≠ some (List.replicate 65536 0) := by
  rw [aesDecrypt_aesEncrypt id id (fun _ => List.replicate 16 0)
    (fun b _ => rfl) (fun b hb => hb) [0, 0, 0, 0] (List.replicate 65536 0)
    (some (List.replicate 16 0))
    (fun v hv => by
      cases hv
      simp)
    (fun x => by simp) (by simp)]
  rw [List.length_replicate]
  simp only [Nat.mod_self, List.take_zero, ne_eq, Option.some.injEq]
  intro h
  have hlen := congrArg List.length h
  rw [List.length_nil, List.length_replicate] at hlen
  omega

/-- C4 (amended: for plaintexts shorter than 65536 bytes, the range of the
2-byte length prefix): `aesDecrypt (aesEncrypt p k iv?) k iv?` returns `p`,
the ciphertext portion's length is a multiple of 16, and the recorded
2-byte big-endian `plaintext_len` is at most the ciphertext length. -/
theorem aes_roundtrip_invariants (E D md5f : List Nat → List Nat)
    (hED : ∀ b, b.length = 16 → D (E b) = b)
    (hElen : ∀ b, b.length = 16 → (E b).length = 16)
    (ivSeed data : List Nat) (iv : Option (List Nat))
    (hiv : ∀ v, iv = some v → v.length = 16)
    (hmd5 : ∀ x, (md5f x).length = 16)
    (hseed : ivSeed.length = 4)
    (hlen : data.length < 65536) :
    aesDecrypt E D md5f (aesEncrypt E md5f ivSeed data iv) iv = some data ∧
    ((aesEncrypt E md5f ivSeed data iv).drop (aesHeaderSize iv)).length % 16 = 0 ∧
    ((aesEncrypt E md5f ivSeed data iv).getD 0 0 <<< 8) |||
        (aesEncrypt E md5f ivSeed data iv).getD 1 0 ≤
      ((aesEncrypt E md5f ivSeed data iv).drop (aesHeaderSize iv)).length := by
  have hct : ∀ (v : List Nat), v.length = 16 →
      (subtleEncrypt E v data).length = 16 * (data.length / 16 + 1) := by
    intro v hv
    rw [subtleEncrypt_length E hElen v data hv, pkcs7Pad_length]
  have hroundtrip : aesDecrypt E D md5f (aesEncrypt E md5f ivSeed data iv) iv = some data := by
    rw [aesDecrypt_aesEncrypt E D md5f hED hElen ivSeed data iv hiv hmd5 hseed,
      Nat.mod_eq_of_lt hlen]
    congr 1
    unfold pkcs7Pad
    exact List.take_left' rfl
  have hdropct : (aesEncrypt E md5f ivSeed data iv).drop (aesHeaderSize iv) =
      subtleEncrypt E (iv.getD (md5f ivSeed)) data := by
    cases iv with
    | some v =>
      rw [aesEncrypt_some]
      simp only [aesHeaderSize, List.drop_succ_cons, List.drop_zero]
      rfl
    | none =>
      rw [aesEncrypt_none]
      show ((((data.length >>> 8) &&& 0xff) :: (data.length &&& 0xff) :: ivSeed) ++
        subtleEncrypt E (md5f ivSeed) data).drop 6 = _
      exact List.drop_left' (by simp [hseed])
  have hivlen : (iv.getD (md5f ivSeed)).length = 16 := by
    cases iv with
    | some v => exact hiv v rfl
    | none => exact hmd5 ivSeed
  have hctlen : ((aesEncrypt E md5f ivSeed data iv).drop (aesHeaderSize iv)).length =
      16 * (data.length / 16 + 1) := by
    rw [hdropct]
    exact hct _ hivlen
  have hpfx : (aesEncrypt E md5f ivSeed data iv).getD 0 0 = (data.length >>> 8) &&& 0xff ∧
      (aesEncrypt E md5f ivSeed data iv).getD 1 0 = data.length &&& 0xff := by
    cases iv with
    | some v =>
      rw [aesEncrypt_some]
      exact ⟨rfl, rfl⟩
    | none =>
      rw [aesEncrypt_none]
      exact ⟨rfl, rfl⟩
  refine ⟨hroundtrip, ?_, ?_⟩
  · rw [hctlen]
    omega
  · rw [hpfx.1, hpfx.2, lenBytes_recombine, Nat.mod_eq_of_lt hlen, hctlen]
    omega

/-- Witness for `aes_roundtrip_invariants` with the identity block cipher,
a 16-zero IV and plaintext `[1, 2, 3]`. -/
theorem aes_roundtrip_invariants_witness :
    aesDecrypt id id (fun _ => List.replicate 16 0)
        (aesEncrypt id (fun _ => List.replicate 16 0) [0, 0, 0, 0] [1, 2, 3]
          (some (List.replicate 16 0)))
        (some (List.replicate 16 0)) = some [1, 2, 3] :=
  (aes_roundtrip_invariants id id (fun _ => List.replicate 16 0)
    (fun b _ => rfl) (fun b hb => hb) [0, 0, 0, 0] [1, 2, 3]
    (some (List.replicate 16 0))
    (fun v hv => by
      cases hv
      simp)
    (fun x => by simp) (by simp) (by norm_num)).1

example : aesDecrypt id id (fun _ => List.replicate 16 0)
    (aesEncrypt id (fun _ => List.replicate 16 0) [0, 0, 0, 0] [1, 2, 3]
      (some (List.replicate 16 0)))
    (some (List.replicate 16 0)) = some [1, 2, 3] := by decide

example : aesDecrypt id id (fun seed => seed ++ seed ++ seed ++ seed)
    (aesEncrypt id (fun seed => seed ++ seed ++ seed ++ seed) [9, 8, 7, 6]
      [5, 5, 5] none) none = some [5, 5, 5] := by decide

example : handshakeToBytes 1 [0xaa, 0xbb] =
    [0x2a, 0x2a, 0x01, 0x02, 0xaa, 0xbb, 0x01, 0x68] := by decide

/-! ## Theorems: AES-CBC claim C5 (the pad block is not truncated) -/

/-- C5 counterexample: for the 16-byte plaintext of zeros the claim predicts
a ciphertext portion of `16 * ceil(16/16) = 16` bytes, but `aesEncrypt`
keeps the full PKCS#7 output — 32 bytes.  No trailing-pad-block truncation
happens. -/
theorem aesEncrypt_truncation_counterexample :
    ¬ (((aesEncrypt id (fun _ => List.replicate 16 0) [0, 0, 0, 0]
          (List.replicate 16 0) (some (List.replicate 16 0))).drop 2).length =
        16 * (((List.replicate 16 (0 : Nat)).length + 15) / 16)) := by
  have h1 : (aesEncrypt id (fun _ => List.replicate 16 0) [0, 0, 0, 0]
      (List.replicate 16 0) (some (List.replicate 16 0))).drop 2 =
      subtleEncrypt id (List.replicate 16 0) (List.replicate 16 0) := by
    rw [aesEncrypt_some]
    simp only [List.drop_succ_cons, List.drop_zero]
  rw [h1, subtleEncrypt_length id (fun b hb => hb) _ _ (by simp), pkcs7Pad_length]
  simp

/-- C5 (amended: `aesEncrypt` encrypts with the PKCS#7 primitive and emits
its full output with no truncation of the trailing pad block, so the
ciphertext portion has length `16 * (floor(|p| / 16) + 1)`; the recorded
`plaintext_len` is what recovers the real length at decrypt time). -/
theorem aesEncrypt_ciphertext_length (E md5f : List Nat → List Nat)
    (hElen : ∀ b, b.length = 16 → (E b).length = 16)
    (ivSeed data : List Nat) (iv : Option (List Nat))
    (hiv : ∀ v, iv = some v → v.length = 16)
    (hmd5 : ∀ x, (md5f x).length = 16)
    (hseed : ivSeed.length = 4) :
    ((aesEncrypt E md5f ivSeed data iv).drop (aesHeaderSize iv)).length =
      16 * (data.length / 16 + 1) := by
  have hdropct : (aesEncrypt E md5f ivSeed data iv).drop (aesHeaderSize iv) =
      subtleEncrypt E (iv.getD (md5f ivSeed)) data := by
    cases iv with
    | some v =>
      rw [aesEncrypt_some]
      simp only [aesHeaderSize, List.drop_succ_cons, List.drop_zero]
      rfl
    | none =>
      rw [aesEncrypt_none]
      show ((((data.length >>> 8) &&& 0xff) :: (data.length &&& 0xff) :: ivSeed) ++
        subtleEncrypt E (md5f ivSeed) data).drop 6 = _
      exact List.drop_left' (by simp [hseed])
  have hivlen : (iv.getD (md5f ivSeed)).length = 16 := by
    cases iv with
    | some v => exact hiv v rfl
    | none => exact hmd5 ivSeed
  rw [hdropct, subtleEncrypt_length E hElen _ data hivlen, pkcs7Pad_length]

/-- Witness for `aesEncrypt_ciphertext_length`: with the 3-byte plaintext
`[1, 2, 3]` the emitted ciphertext portion has `16 * (0 + 1) = 16` bytes. -/
theorem aesEncrypt_ciphertext_length_witness :
    ((aesEncrypt id (fun _ => List.replicate 16 0) [0, 0, 0, 0] [1, 2, 3]
        (some (List.replicate 16 0))).drop
      (aesHeaderSize (some (List.replicate 16 0)))).length =
      16 * (([1, 2, 3] : List Nat).length / 16 + 1) :=
  aesEncrypt_ciphertext_length id (fun _ => List.replicate 16 0)
    (fun b hb => hb) [0, 0, 0, 0] [1, 2, 3] (some (List.replicate 16 0))
    (fun v hv => by
      cases hv
      simp)
    (fun x => by simp) (by simp)

end Bluetti
